import Mathlib

/-!
# Verification of the snsampler repository

Shallow embedding of the two source modules:

* AuxArrayOps.py — batched linear-algebra helpers (multimatmul, multiskew);
* SNSampler.py — the SNSampler class: deterministic cube-to-sphere sampling,
  antipodal-redundancy removal, quaternion-to-rotation-matrix conversion
  (via scipy.spatial.transform.Rotation) and the differential
  transformation-sequence computation.

Modelling conventions.  Floating-point numbers are idealized as exact
rationals (ℚ); "within floating-point tolerance" becomes exact equality.
A numpy array of shape (D1, D2, B) — a batch of B matrices stacked along the
trailing axis — is embedded as a `List` of B matrices `Matrix (Fin D1) (Fin D2) ℚ`,
the list index being the batch index.  A 2-D array whose columns are the
data points (shape (N, B)) is embedded as a `List` of its B columns.
-/

namespace SNS

open scoped Matrix

/-- 3×3 rational matrices: the slice type of the (3,3,B) batch tensors. -/
abbrev Mat3 := Matrix (Fin 3) (Fin 3) ℚ

/-! ## AuxArrayOps.py -/

/-- `multimatmul a b` (AuxArrayOps.py lines 18–43).  The source computes
`rollaxis(matmul(rollaxis(a, 2), rollaxis(b, 2)), 0, 3)`: rolling the batch
axis to the front turns the (D1,M,B) and (M,D2,B) stacks into numpy stacks of
leading-batch matrices, `np.matmul` multiplies them slice-by-slice, and the
final rollaxis moves the batch axis back to the rear.  In the list-of-slices
embedding (batch axis = list index) the two rollaxis steps are the identity
view, so the whole pipeline is the slicewise matrix product. -/
def multimatmul {D1 M D2 : ℕ} (a : List (Matrix (Fin D1) (Fin M) ℚ))
    (b : List (Matrix (Fin M) (Fin D2) ℚ)) : List (Matrix (Fin D1) (Fin D2) ℚ) :=
  List.zipWith (· * ·) a b

/-- First fixed basis matrix `skew0` of multiskew (AuxArrayOps.py lines 60–66). -/
def skew0 : Mat3 := !![0, 0, 0; 0, 0, -1; 0, 1, 0]

/-- Second fixed basis matrix `skew1` of multiskew (AuxArrayOps.py lines 67–73). -/
def skew1 : Mat3 := !![0, 0, 1; 0, 0, 0; -1, 0, 0]

/-- Third fixed basis matrix `skew2` of multiskew (AuxArrayOps.py lines 74–80). -/
def skew2 : Mat3 := !![0, -1, 0; 1, 0, 0; 0, 0, 0]

/-- `multiskew veclist` (AuxArrayOps.py lines 45–90).  The input (3,B) array is
embedded as the list of its B columns.  The source broadcasts row n of the
input against the constant stack of `skewn` and sums the three stacks, so
slice i of the result is `v[0,i]*skew0 + v[1,i]*skew1 + v[2,i]*skew2`. -/
def multiskew (veclist : List (Fin 3 → ℚ)) : List Mat3 :=
  veclist.map fun c => c 0 • skew0 + c 1 • skew1 + c 2 • skew2

/-- Cross product of two 3-vectors (glossary: the matrix K with K·x = v × x
for all x; this is the standard componentwise cross product). -/
def cross3 (a b : Fin 3 → ℚ) : Fin 3 → ℚ :=
  ![a 1 * b 2 - a 2 * b 1, a 2 * b 0 - a 0 * b 2, a 0 * b 1 - a 1 * b 0]

/-- The skew-symmetric cross-product matrix of a 3-vector, as written in the
spec (§4.1): K = [[0, -v_z, v_y], [v_z, 0, -v_x], [-v_y, v_x, 0]]. -/
def skewOf (v : Fin 3 → ℚ) : Mat3 :=
  !![0, -(v 2), v 1; v 2, 0, -(v 0); -(v 1), v 0, 0]

/-! ## SNSampler.py — construction pipeline (`__init__`, lines 26–59)

The constructor's arrays are rational until the final normalization (which
divides by a square root and is therefore treated over ℝ in the theorems):
`linspace` values, cube-face coordinates and their rolled copies are exact
rationals.  Arrays of shape (k, B) are embedded as lists of their B columns. -/

/-- `np.linspace(-1., 1., n)` (SNSampler.py line 29): n evenly spaced values
from -1 to 1 inclusive.  For n = 1 numpy returns [-1.]; the formula below
agrees because ℚ-division by zero is zero. -/
def linspace (n : ℕ) : List ℚ :=
  List.ofFn fun k : Fin n => -1 + 2 * (k : ℚ) / ((n : ℚ) - 1)

/-- All d-tuples over the value list x, enumerated with the FIRST component
slowest (C-order flattening of a d-dimensional grid: last axis fastest). -/
def gridTuples (x : List ℚ) : ℕ → List (List ℚ)
  | 0 => [[]]
  | d + 1 => x.flatMap fun v => (gridTuples x d).map (v :: ·)

/-- Swap the first two entries of a list (identity on shorter lists). -/
def swap12 : List ℚ → List ℚ
  | a :: b :: t => b :: a :: t
  | l => l

/-- Columns of `ptsNm1d` (SNSampler.py lines 28–35): each of the d = n_dims-1
meshgrid output arrays is flattened to a row and the rows are stacked, so
column j is the j-th grid point.  `np.meshgrid` with its default 'xy'
indexing gives outputs of shape (n2, n1, n3, …, nd) — the first two index
axes are swapped — so the C-order column at index tuple (t1, …, td) is
(x[t2], x[t1], x[t3], …, x[td]); for d = 1 meshgrid returns the array
unchanged.  Hence: the lexicographic tuple enumeration with the first two
tuple entries swapped. -/
def ptsNm1dCols (n_dims n_samples : ℕ) : List (List ℚ) :=
  (gridTuples (linspace n_samples) (n_dims - 1)).map swap12

/-- Columns of `ptsNd` (SNSampler.py lines 37–47): for scl in [-1., 1.], a
constant row of scl is appended below `ptsNm1d` (each column gets scl as a
new last coordinate), and the two blocks are concatenated along columns in
the order scl = -1 then scl = 1. -/
def ptsNdCols (n_dims n_samples : ℕ) : List (List ℚ) :=
  (ptsNm1dCols n_dims n_samples).map (· ++ [-1])
    ++ (ptsNm1dCols n_dims n_samples).map (· ++ [1])

/-- `np.roll(·, k, axis=0)` acting on one column c of length N: the entry at
row i moves to row (i + k) mod N, i.e. out[i] = c[(i - k) mod N].  In terms
of `List.rotate` (a LEFT rotation) this is a rotation by N - k % N. -/
def rollCol (k : ℕ) (c : List ℚ) : List ℚ :=
  c.rotate (c.length - k % c.length)

/-- The concatenation, for n = 0, …, n_dims-1, of the n-fold rolled copies of
`ptsNd` (SNSampler.py lines 48–54, inner concatenate). -/
def rolledCols (n_dims n_samples : ℕ) : List (List ℚ) :=
  (List.range n_dims).flatMap fun k => (ptsNdCols n_dims n_samples).map (rollCol k)

/-- Lexicographic column comparison used to model the sorting performed by
`np.unique(·, axis=1)`. -/
def lexLe : List ℚ → List ℚ → Bool
  | [], _ => true
  | _ :: _, [] => false
  | a :: as, b :: bs => if a < b then true else if b < a then false else lexLe as bs

/-- Insert a column into a lexicographically sorted column list. -/
def insertCol (c : List ℚ) : List (List ℚ) → List (List ℚ)
  | [] => [c]
  | d :: ds => if lexLe c d then c :: d :: ds else d :: insertCol c ds

/-- Insertion sort of a column list by `lexLe`. -/
def sortCols : List (List ℚ) → List (List ℚ)
  | [] => []
  | c :: cs => insertCol c (sortCols cs)

/-- `np.unique(·, axis=1)` (SNSampler.py lines 48–54): the distinct columns
(two columns identical iff all coordinates match), returned sorted in
ascending lexicographic order. -/
def uniqueCols (l : List (List ℚ)) : List (List ℚ) :=
  (sortCols l).dedup

/-- Columns of `pts` (SNSampler.py lines 48–54): the deduplicated cube-surface
point set, before normalization. -/
def ptsCols (n_dims n_samples : ℕ) : List (List ℚ) :=
  uniqueCols (rolledCols n_dims n_samples)

/-- Sum of squared entries of a column: the quantity `(pts**2).sum(axis=0)`
(SNSampler.py line 56) whose square root is the normalizing factor. -/
def sumSq (c : List ℚ) : ℚ :=
  (c.map fun x => x ^ 2).sum

/-! ## SNSampler.py — instance state and methods

The instance state is `self.sample_points` plus the optional pair
`(self.RMat, self.RMatInverse)`; the two rotation-matrix attributes are
always created together by `getRMatsFromQuats` (lines 86–87), so they are
embedded as one optional pair.  `sample_points` is stored as the list of its
columns with exact rational coordinates: the constructor's normalization step
divides each column by its (positive, possibly irrational) Euclidean norm,
which changes neither the sign test of `removeRedundantRotations` nor the
output of `quatToMat` (scipy normalizes the quaternions itself, so the map is
scale-invariant); the norm-1 property of the normalized columns is stated
over ℝ in the corresponding theorem. -/

/-- The SNSampler instance state. -/
structure SNSampler where
  sample_points : List (List ℚ)
  rmats : Option (List Mat3 × List Mat3)

/-- The constructor `SNSampler(n_dims, n_samples)` (lines 26–59): the sample
point set is populated (here kept pre-normalization, see above) and no
rotation-matrix attributes exist yet. -/
def mkSampler (n_dims n_samples : ℕ) : SNSampler :=
  { sample_points := ptsCols n_dims n_samples, rmats := none }

/-- `np.where(cond)[0]` for a 1-D Boolean array: the indices at which the
condition holds, in increasing order (SNSampler.py line 68). -/
def npWhere (cond : List Bool) : List ℕ :=
  (List.range cond.length).filter fun i => cond.getD i false

/-- `removeRedundantRotations` (SNSampler.py lines 61–69): replaces
`sample_points` by its columns gathered at the indices where the first row
is strictly positive.  The first row `sample_points[0,:]` is the list of the
columns' first coordinates. -/
def removeRedundantRotations (s : SNSampler) : SNSampler :=
  { s with
    sample_points := (npWhere (s.sample_points.map fun c => decide (0 < c.headD 0))).map
      fun i => s.sample_points.getD i [] }

/-- Models scipy's `Rotation.from_quat` followed by `as_matrix`
(SNSampler.py lines 85–86).  scipy's `from_quat` reads each quaternion in
SCALAR-LAST order (x, y, z, w) and normalizes it; `as_matrix` of the
normalized quaternion yields entries that are quadratic forms in (x,y,z,w)
divided by the squared norm s, hence rational in the input.  (scipy raises on
an exactly-zero quaternion; here division by s = 0 yields the zero matrix,
a state no claim touches.) -/
def quatToMat (q : List ℚ) : Mat3 :=
  !![(q.getD 3 0 ^ 2 + q.getD 0 0 ^ 2 - q.getD 1 0 ^ 2 - q.getD 2 0 ^ 2) /
       (q.getD 0 0 ^ 2 + q.getD 1 0 ^ 2 + q.getD 2 0 ^ 2 + q.getD 3 0 ^ 2),
     2 * (q.getD 0 0 * q.getD 1 0 - q.getD 2 0 * q.getD 3 0) /
       (q.getD 0 0 ^ 2 + q.getD 1 0 ^ 2 + q.getD 2 0 ^ 2 + q.getD 3 0 ^ 2),
     2 * (q.getD 0 0 * q.getD 2 0 + q.getD 1 0 * q.getD 3 0) /
       (q.getD 0 0 ^ 2 + q.getD 1 0 ^ 2 + q.getD 2 0 ^ 2 + q.getD 3 0 ^ 2);
     2 * (q.getD 0 0 * q.getD 1 0 + q.getD 2 0 * q.getD 3 0) /
       (q.getD 0 0 ^ 2 + q.getD 1 0 ^ 2 + q.getD 2 0 ^ 2 + q.getD 3 0 ^ 2),
     (q.getD 3 0 ^ 2 - q.getD 0 0 ^ 2 + q.getD 1 0 ^ 2 - q.getD 2 0 ^ 2) /
       (q.getD 0 0 ^ 2 + q.getD 1 0 ^ 2 + q.getD 2 0 ^ 2 + q.getD 3 0 ^ 2),
     2 * (q.getD 1 0 * q.getD 2 0 - q.getD 0 0 * q.getD 3 0) /
       (q.getD 0 0 ^ 2 + q.getD 1 0 ^ 2 + q.getD 2 0 ^ 2 + q.getD 3 0 ^ 2);
     2 * (q.getD 0 0 * q.getD 2 0 - q.getD 1 0 * q.getD 3 0) /
       (q.getD 0 0 ^ 2 + q.getD 1 0 ^ 2 + q.getD 2 0 ^ 2 + q.getD 3 0 ^ 2),
     2 * (q.getD 1 0 * q.getD 2 0 + q.getD 0 0 * q.getD 3 0) /
       (q.getD 0 0 ^ 2 + q.getD 1 0 ^ 2 + q.getD 2 0 ^ 2 + q.getD 3 0 ^ 2),
     (q.getD 3 0 ^ 2 - q.getD 0 0 ^ 2 - q.getD 1 0 ^ 2 + q.getD 2 0 ^ 2) /
       (q.getD 0 0 ^ 2 + q.getD 1 0 ^ 2 + q.getD 2 0 ^ 2 + q.getD 3 0 ^ 2)]

/-- scipy's `Rotation.inv` (SNSampler.py line 87) inverts each rotation by
conjugating its quaternion: in scalar-last order (x, y, z, w) the vector part
is negated and the scalar part kept. -/
def quatConj (q : List ℚ) : List ℚ :=
  [-q.getD 0 0, -q.getD 1 0, -q.getD 2 0, q.getD 3 0]

/-- `getRMatsFromQuats` (SNSampler.py lines 72–88): converts the columns of
`sample_points` (read as scalar-last quaternions by scipy) into the stacks
`RMat` (line 86) and `RMatInverse` (line 87, the matrices of the conjugated
quaternions), overwriting any previous pair.  The sample point set itself is
not touched. -/
def getRMatsFromQuats (s : SNSampler) : SNSampler :=
  { s with
    rmats := some (s.sample_points.map quatToMat,
      s.sample_points.map fun q => quatToMat (quatConj q)) }

/-! ## SNSampler.py — getTransformationSequence (lines 90–125) -/

/-- The two ways the method body can fail (SNSampler.py lines 114–125):

* `preconditionError` models the AttributeError raised by reading a missing
  `self.RMat`/`self.RMatInverse`, which the method CATCHES, reports
  ("ERROR: Try running getRMatsFromQuats() first.") and turns into an early
  return — the spec's PreconditionError path;
* `indexError` models an IndexError from an out-of-range list or array
  access (e.g. `these[0]` on an empty index list), which is NOT caught by
  the `except AttributeError` handler and escapes the method. -/
inductive SamplerError
  | preconditionError
  | indexError
deriving DecidableEq

/-- `list(range(start, stop, step))` for a positive step (SNSampler.py
line 115): the indices start, start+step, … strictly below stop.  The count
is ⌈(stop - start)/step⌉, i.e. (stop - start + step - 1)/step in ℕ. -/
def pyRange (start stop step : ℕ) : List ℕ :=
  List.range' start ((stop - start + step - 1) / step) step

/-- A single bounds-checked list access, `l[i]`; out of range raises
IndexError. -/
def npGet (l : List Mat3) (i : ℕ) : Except SamplerError Mat3 :=
  if h : i < l.length then .ok l[i] else .error .indexError

/-- numpy fancy indexing `arr[:,:,idx]` on a (3,3,B) stack: gathers the
slices at the listed batch indices, in order; any out-of-range index raises
IndexError. -/
def npGather (l : List Mat3) (idx : List ℕ) : Except SamplerError (List Mat3) :=
  if idx.all fun i => decide (i < l.length) then
    .ok (idx.map fun i => l.getD i 0)
  else .error .indexError

/-- `getTransformationSequence(start, stride)` (SNSampler.py lines 90–125).
Returned is the pair (new instance state, outcome): the method assigns no
instance attribute, so the state component is the input state.

Following the source order inside the try block: `self.RMat` is read first
(line 115; missing → caught AttributeError → the PreconditionError path),
`these = list(range(start, B, stride))` is formed over the batch bound
B = RMat.shape[-1], `these[0]` and `RMat[:,:,these[0]]` fill the first output
slice (line 117; empty `these` → uncaught IndexError), and slices 1… are
`multimatmul(RMat[:,:,these[1:]], RMatInverse[:,:,these[:-1]])` (lines
118–121) written into the zero-initialized (3,3,len(these)) output, which the
two assignments overwrite completely.  `RMat`/`RMatInverse` only exist
together (both are set by getRMatsFromQuats), hence the single option
pattern-match. -/
def getTransformationSequence (s : SNSampler) (start stride : ℕ) :
    SNSampler × Except SamplerError (List Mat3 × List ℕ) :=
  (s, match s.rmats with
    | none => .error .preconditionError
    | some (rmat, rmatInverse) =>
      let these := pyRange start rmat.length stride
      match these with
      | [] => .error .indexError
      | i0 :: _ =>
        match npGet rmat i0, npGather rmat these.tail,
            npGather rmatInverse these.dropLast with
        | .ok m0, .ok ga, .ok gb => .ok (m0 :: multimatmul ga gb, these)
        | .error e, _, _ => .error e
        | .ok _, .error e, _ => .error e
        | .ok _, .ok _, .error e => .error e)

/-! ## Definitions taken from the spec's words (for refinement comparisons)

The spec (§4.4) gives the closed-form quaternion-to-matrix formula
R = (w² − |v|²)·I + 2·v·vᵗ + 2w·skew(v) and says each column is read
scalar-FIRST as [w, x, y, z].  `specForwardScalarFirst` is that reading;
`specForwardScalarLast` applies the same closed-form formula to the
scalar-LAST reading [x, y, z, w] that scipy actually uses. -/

/-- The spec's §4.4 formula with the spec's scalar-first reading: w is the
column's first coordinate, v its last three. -/
def specForwardScalarFirst (q : List ℚ) : Mat3 :=
  (q.getD 0 0 ^ 2 - (q.getD 1 0 ^ 2 + q.getD 2 0 ^ 2 + q.getD 3 0 ^ 2)) • (1 : Mat3)
    + (2 : ℚ) • Matrix.of (fun i j => ![q.getD 1 0, q.getD 2 0, q.getD 3 0] i *
        ![q.getD 1 0, q.getD 2 0, q.getD 3 0] j)
    + (2 * q.getD 0 0) • skewOf ![q.getD 1 0, q.getD 2 0, q.getD 3 0]

/-- The spec's §4.4 formula with the scalar-last reading: w is the column's
last coordinate, v its first three. -/
def specForwardScalarLast (q : List ℚ) : Mat3 :=
  (q.getD 3 0 ^ 2 - (q.getD 0 0 ^ 2 + q.getD 1 0 ^ 2 + q.getD 2 0 ^ 2)) • (1 : Mat3)
    + (2 : ℚ) • Matrix.of (fun i j => ![q.getD 0 0, q.getD 1 0, q.getD 2 0] i *
        ![q.getD 0 0, q.getD 1 0, q.getD 2 0] j)
    + (2 * q.getD 3 0) • skewOf ![q.getD 0 0, q.getD 1 0, q.getD 2 0]

/-! ## Claim theorems -/

/-- C1: for every sampler on which getRMatsFromQuats has not yet run since
construction (no rotation-matrix pair stored), getTransformationSequence
fails with the reported, recoverable PreconditionError path — not with an
uncaught fault and not with a numeric result — for every (start, stride). -/
theorem getTransformationSequence_precondition (s : SNSampler) (h : s.rmats = none)
    (start stride : ℕ) :
    (getTransformationSequence s start stride).2 = Except.error SamplerError.preconditionError := by
  simp [getTransformationSequence, h]

/-- Witness for C1: the freshly constructed sampler with n_dims = 4,
n_samples = 3 has no rotation-matrix pair, and getTransformationSequence(0, 1)
on it reports the PreconditionError. -/
theorem getTransformationSequence_precondition_witness :
    (mkSampler 4 3).rmats = none ∧
    (getTransformationSequence (mkSampler 4 3) 0 1).2
      = Except.error SamplerError.preconditionError :=
  ⟨rfl, getTransformationSequence_precondition (mkSampler 4 3) rfl 0 1⟩

/-- C9: the sample point set is untouched by getRMatsFromQuats (which writes
only the rotation-matrix pair), the rotation-matrix pair is untouched by
removeRedundantRotations, and getTransformationSequence writes no instance
state at all. -/
theorem methods_frame_effects (s : SNSampler) (start stride : ℕ) :
    (getRMatsFromQuats s).sample_points = s.sample_points ∧
    (removeRedundantRotations s).rmats = s.rmats ∧
    (getTransformationSequence s start stride).1 = s :=
  ⟨rfl, rfl, rfl⟩

/-- C10: when the rotation-matrix pair exists with batch size B and
start ≥ B, the selected index list is empty and getTransformationSequence
does not return a result: reading the first selected index raises the
out-of-bounds IndexError, which is not converted into the handled
missing-matrices (PreconditionError) path. -/
theorem getTransformationSequence_empty_indexError (s : SNSampler)
    (R Rinv : List Mat3) (start stride : ℕ) (hr : s.rmats = some (R, Rinv))
    (hB : R.length ≤ start) (hstride : 1 ≤ stride) :
    (getTransformationSequence s start stride).2 = Except.error SamplerError.indexError ∧
    (getTransformationSequence s start stride).2 ≠ Except.error SamplerError.preconditionError := by
  have hm : R.length - start = 0 := Nat.sub_eq_zero_of_le hB
  have hempty : pyRange start R.length stride = [] := by
    unfold pyRange
    rw [hm]
    have hc : (0 + stride - 1) / stride = 0 := Nat.div_eq_of_lt (by omega)
    rw [hc, List.range']
  constructor
  · simp [getTransformationSequence, hr, hempty]
  · simp [getTransformationSequence, hr, hempty]

/-- Witness for C10: a sampler holding a single identity rotation matrix
(B = 1) with start = 1, stride = 1 hits the uncaught IndexError. -/
theorem getTransformationSequence_empty_indexError_witness :
    (getTransformationSequence { sample_points := [], rmats := some ([1], [1]) } 1 1).2
      = Except.error SamplerError.indexError ∧
    (getTransformationSequence { sample_points := [], rmats := some ([1], [1]) } 1 1).2
      ≠ Except.error SamplerError.preconditionError :=
  getTransformationSequence_empty_indexError
    { sample_points := [], rmats := some ([1], [1]) } [1] [1] 1 1 rfl
    (by decide) (by decide)

/-- Gathering a list at the indices at which a predicate holds of its entries
(np.where on the predicate row followed by fancy indexing) is the same as
filtering the list by the predicate. -/
theorem gather_where_eq_filter {α : Type} (d : α) (p : α → Bool) (l : List α) :
    ((List.range l.length).filter (fun i => (l.map p).getD i false)).map
        (fun i => l.getD i d)
      = l.filter p := by
  induction l with
  | nil => rfl
  | cons c t ih =>
    have hmapfilter :
        List.filter (fun i => ((c :: t).map p).getD i false)
            ((List.range t.length).map Nat.succ)
          = (List.filter (fun i => (t.map p).getD i false) (List.range t.length)).map
              Nat.succ := by
      rw [List.filter_map]
      rfl
    rw [List.length_cons, List.range_succ_eq_map]
    by_cases hpc : p c
    · rw [List.filter_cons_of_pos (by exact hpc), hmapfilter, List.map_cons, List.map_map]
      show c :: List.map (fun i => t.getD i d) _ = _
      rw [ih, List.filter_cons_of_pos hpc]
    · rw [List.filter_cons_of_neg (by exact hpc), hmapfilter, List.map_map]
      show List.map (fun i => t.getD i d) _ = _
      rw [ih, List.filter_cons_of_neg hpc]

/-- C5: removeRedundantRotations replaces the sample point set with exactly
those columns whose first coordinate is strictly positive — the filter of the
column list by that test — hence the survivors keep their relative order
(the result is a sublist of the original) and no column is added or
modified, and every surviving column has strictly positive first
coordinate. -/
theorem removeRedundantRotations_spec (s : SNSampler) :
    (removeRedundantRotations s).sample_points
      = s.sample_points.filter (fun c => decide (0 < c.headD 0)) ∧
    List.Sublist (removeRedundantRotations s).sample_points s.sample_points ∧
    ∀ c ∈ (removeRedundantRotations s).sample_points, 0 < c.headD 0 := by
  have hmain : (removeRedundantRotations s).sample_points
      = s.sample_points.filter (fun c => decide (0 < c.headD 0)) := by
    show ((npWhere (s.sample_points.map fun c => decide (0 < c.headD 0))).map
      fun i => s.sample_points.getD i []) = _
    unfold npWhere
    rw [List.length_map]
    exact gather_where_eq_filter [] _ s.sample_points
  refine ⟨hmain, ?_, ?_⟩
  · rw [hmain]
    exact List.filter_sublist _
  · rw [hmain]
    intro c hc
    simpa using List.of_mem_filter hc

/-- The three-term linear combination multiskew computes for one column
equals the spec's cross-product matrix of that column. -/
theorem skew_combo_eq (c : Fin 3 → ℚ) :
    c 0 • skew0 + c 1 • skew1 + c 2 • skew2 = skewOf c := by
  ext i j
  fin_cases i <;> fin_cases j <;>
    simp [skew0, skew1, skew2, skewOf, Matrix.vecHead, Matrix.vecTail]

/-- The spec's cross-product matrix acts on vectors as the cross product. -/
theorem skewOf_mulVec (c x : Fin 3 → ℚ) :
    (skewOf c).mulVec x = cross3 c x := by
  funext i
  fin_cases i <;>
    simp [skewOf, cross3, Matrix.mulVec, Matrix.dotProduct, Fin.sum_univ_three] <;>
    ring

/-- Any matrix acting as the cross product with c is the spec's cross-product
matrix of c. -/
theorem skewOf_unique (c : Fin 3 → ℚ) (K : Mat3)
    (h : ∀ x, K.mulVec x = cross3 c x) : K = skewOf c := by
  ext i j
  have h1 := congr_fun (h (Pi.single j 1)) i
  fin_cases i <;> fin_cases j <;>
    simpa [Matrix.mulVec, Matrix.dotProduct, Fin.sum_univ_three, Pi.single_apply,
      cross3, skewOf] using h1

/-- C7: for every batch (of any size, zero included) of 3-vector columns,
multiskew preserves the batch size, and slice i is exactly the matrix
[[0, -vz, vy], [vz, 0, -vx], [-vy, vx, 0]] of column i = (vx, vy, vz) — the
unique matrix K with K·x = v_i × x for every 3-vector x. -/
theorem multiskew_spec (v : List (Fin 3 → ℚ)) :
    (multiskew v).length = v.length ∧
    ∀ i, i < v.length →
      (multiskew v).getD i 0 = skewOf (v.getD i fun _ => 0) ∧
      (∀ x : Fin 3 → ℚ,
        ((multiskew v).getD i 0).mulVec x = cross3 (v.getD i fun _ => 0) x) ∧
      (∀ K : Mat3, (∀ x : Fin 3 → ℚ, K.mulVec x = cross3 (v.getD i fun _ => 0) x) →
        K = (multiskew v).getD i 0) := by
  refine ⟨by simp [multiskew], ?_⟩
  intro i hi
  have hlen : i < (multiskew v).length := by simpa [multiskew] using hi
  have hslice : (multiskew v).getD i 0 = skewOf (v.getD i fun _ => 0) := by
    rw [List.getD_eq_getElem _ _ hlen, List.getD_eq_getElem _ _ hi]
    show (List.map _ v)[i] = _
    rw [List.getElem_map]
    exact skew_combo_eq _
  refine ⟨hslice, ?_, ?_⟩
  · intro x
    rw [hslice]
    exact skewOf_mulVec _ x
  · intro K hK
    rw [hslice]
    exact skewOf_unique _ K hK

/-- Witness for C7: the single-column batch [1, 0, 0], whose skew matrix is
[[0,0,0],[0,0,-1],[0,1,0]]. -/
theorem multiskew_spec_witness :
    (multiskew [![1, 0, 0]]).length = ([![1, 0, 0]] : List (Fin 3 → ℚ)).length ∧
    ((multiskew [![1, 0, 0]]).getD 0 0
        = skewOf (([![1, 0, 0]] : List (Fin 3 → ℚ)).getD 0 fun _ => 0) ∧
      (∀ x : Fin 3 → ℚ, ((multiskew [![1, 0, 0]]).getD 0 0).mulVec x
        = cross3 (([![1, 0, 0]] : List (Fin 3 → ℚ)).getD 0 fun _ => 0) x) ∧
      (∀ K : Mat3, (∀ x : Fin 3 → ℚ, K.mulVec x
          = cross3 (([![1, 0, 0]] : List (Fin 3 → ℚ)).getD 0 fun _ => 0) x) →
        K = (multiskew [![1, 0, 0]]).getD 0 0)) :=
  ⟨(multiskew_spec [![1, 0, 0]]).1, (multiskew_spec [![1, 0, 0]]).2 0 (by decide)⟩

/-- The all-ones (2,3,4) stack of the spec's §8 batched-matmul example. -/
def onesStackA : List (Matrix (Fin 2) (Fin 3) ℚ) :=
  List.replicate 4 (Matrix.of fun _ _ => 1)

/-- The all-ones (3,2,4) stack of the spec's §8 batched-matmul example. -/
def onesStackB : List (Matrix (Fin 3) (Fin 2) ℚ) :=
  List.replicate 4 (Matrix.of fun _ _ => 1)

/-- C8: for every batch size B ≥ 0 (the empty batch giving the empty output)
and all inner dimensions, square or not, multimatmul maps equal-length
stacks to a stack of the same length whose slice i is the ordinary matrix
product of the input slices i — entrywise the usual sum-of-products. -/
theorem multimatmul_spec {D1 M D2 : ℕ} (a : List (Matrix (Fin D1) (Fin M) ℚ))
    (b : List (Matrix (Fin M) (Fin D2) ℚ)) (h : a.length = b.length) :
    (multimatmul a b).length = a.length ∧
    (a.length = 0 → multimatmul a b = []) ∧
    ∀ i, i < a.length → ∀ r c,
      ((multimatmul a b).getD i 0) r c
        = ∑ m, (a.getD i 0) r m * (b.getD i 0) m c := by
  have hlen : (multimatmul a b).length = a.length := by
    simp [multimatmul, h]
  refine ⟨hlen, ?_, ?_⟩
  · intro h0
    have : (multimatmul a b).length = 0 := by rw [hlen, h0]
    exact List.length_eq_zero.mp this
  · intro i hi r c
    have hib : i < b.length := h ▸ hi
    have him : i < (multimatmul a b).length := by rw [hlen]; exact hi
    rw [List.getD_eq_getElem _ _ him, List.getD_eq_getElem _ _ hi,
      List.getD_eq_getElem _ _ hib]
    simp only [multimatmul]
    rw [List.getElem_zipWith]
    exact Matrix.mul_apply

/-- Witness for C8: the spec's §8 example — four slices of 2×3 ones times
four slices of 3×2 ones — instantiated at slice 0. -/
theorem multimatmul_spec_witness :
    0 < onesStackA.length ∧
    ∀ r c, ((multimatmul onesStackA onesStackB).getD 0 0) r c
      = ∑ m, (onesStackA.getD 0 0) r m * (onesStackB.getD 0 0) m c :=
  ⟨by decide, (multimatmul_spec onesStackA onesStackB (by decide)).2.2 0 (by decide)⟩

/-- Mapped-list indexing: in range, getD over a map is the function applied
to getD of the underlying list (any defaults). -/
theorem getD_map_eq {α β : Type} (f : α → β) (l : List α) (i : ℕ)
    (hi : i < l.length) (d : β) (d' : α) :
    (l.map f).getD i d = f (l.getD i d') := by
  rw [List.getD_eq_getElem _ _ (by simpa using hi), List.getD_eq_getElem _ _ hi,
    List.getElem_map]

/-- A list of length 4 is an explicit 4-tuple. -/
theorem exists_quad_of_length_four (c : List ℚ) (h4 : c.length = 4) :
    ∃ x y z w, c = [x, y, z, w] := by
  rcases c with _ | ⟨x, c⟩
  · simp at h4
  rcases c with _ | ⟨y, c⟩
  · simp at h4
  rcases c with _ | ⟨z, c⟩
  · simp at h4
  rcases c with _ | ⟨w, c⟩
  · simp at h4
  rcases c with _ | ⟨e, c⟩
  · exact ⟨x, y, z, w, rfl⟩
  · simp only [List.length_cons] at h4
    omega

/-- The rotation matrix of a unit scalar-last quaternion [x, y, z, w] is
orthogonal: R·Rᵗ is the identity, exactly. -/
theorem quatToMat_orthogonal (x y z w : ℚ) (h : x ^ 2 + y ^ 2 + z ^ 2 + w ^ 2 = 1) :
    quatToMat [x, y, z, w] * (quatToMat [x, y, z, w])ᵀ = 1 := by
  ext i j
  fin_cases i <;> fin_cases j <;>
    simp [quatToMat, Matrix.mul_apply, Fin.sum_univ_three, Matrix.transpose_apply,
      Matrix.one_apply, Matrix.vecHead, Matrix.vecTail, h] <;>
    nlinarith [h, sq_nonneg x, sq_nonneg y]

/-- The rotation matrix of the conjugated quaternion is the transpose of the
rotation matrix (for every input column, including degenerate ones). -/
theorem quatToMat_conj_transpose (q : List ℚ) :
    quatToMat (quatConj q) = (quatToMat q)ᵀ := by
  ext i j
  fin_cases i <;> fin_cases j <;>
    simp [quatToMat, quatConj, Matrix.transpose_apply, Matrix.vecHead, Matrix.vecTail] <;>
    ring

/-- On unit length-4 columns, quatToMat is the spec's closed-form formula
with the scalar-LAST reading of the column. -/
theorem quatToMat_eq_spec_scalar_last (c : List ℚ) (h4 : c.length = 4)
    (h1 : sumSq c = 1) :
    quatToMat c = specForwardScalarLast c := by
  obtain ⟨x, y, z, w, rfl⟩ := exists_quad_of_length_four c h4
  have h : x ^ 2 + y ^ 2 + z ^ 2 + w ^ 2 = 1 := by
    simp [sumSq] at h1
    linarith
  ext i j
  fin_cases i <;> fin_cases j <;>
    simp [quatToMat, specForwardScalarLast, skewOf, Matrix.one_apply,
      Matrix.smul_apply, Matrix.add_apply, Matrix.of_apply, Matrix.vecHead,
      Matrix.vecTail, h] <;>
    ring

/-- quatToMat of a unit length-4 column is orthogonal. -/
theorem quatToMat_orthogonal_of_unit (c : List ℚ) (h4 : c.length = 4)
    (h1 : sumSq c = 1) :
    quatToMat c * (quatToMat c)ᵀ = 1 := by
  obtain ⟨x, y, z, w, rfl⟩ := exists_quad_of_length_four c h4
  refine quatToMat_orthogonal x y z w ?_
  simp [sumSq] at h1
  linarith

/-- C2 counterexample: take the one-column sample point set [1, 0, 0, 0],
exactly unit-norm.  scipy reads it scalar-LAST (vector part (1,0,0), scalar
0: a half-turn about the x-axis, diag(1,-1,-1)), while the claim's
scalar-first reading (scalar 1, vector 0) demands the identity matrix; the
Forward slice the code produces differs from the claim's formula. -/
theorem forward_scalar_first_counterexample :
    sumSq [(1 : ℚ), 0, 0, 0] = 1 ∧
    ((getRMatsFromQuats
          { sample_points := [[(1 : ℚ), 0, 0, 0]], rmats := none }).rmats.getD
        ([], [])).1.getD 0 0
      ≠ specForwardScalarFirst [(1 : ℚ), 0, 0, 0] := by
  constructor
  · norm_num [sumSq]
  · intro hEq
    have h11 := congr_fun (congr_fun hEq 1) 1
    norm_num [getRMatsFromQuats, quatToMat, specForwardScalarFirst, skewOf,
      Matrix.one_apply, Matrix.smul_apply, Matrix.add_apply, Matrix.of_apply,
      Matrix.vecHead, Matrix.vecTail] at h11

/-- C2 (amended): for every sample point set of unit-norm 4-vector columns,
getRMatsFromQuats populates Forward so that slice i equals
(w² − |v|²)·I + 2·v·vᵗ + 2w·skew(v), where column i is interpreted
scalar-LAST as [x, y, z, w]: scalar part w its LAST coordinate, vector part
v its first three. -/
theorem getRMatsFromQuats_forward_spec (s : SNSampler)
    (h : ∀ c ∈ s.sample_points, c.length = 4 ∧ sumSq c = 1) :
    ∃ F Finv, (getRMatsFromQuats s).rmats = some (F, Finv) ∧
      F.length = s.sample_points.length ∧
      ∀ i, i < s.sample_points.length →
        F.getD i 0 = specForwardScalarLast (s.sample_points.getD i []) := by
  refine ⟨s.sample_points.map quatToMat,
    s.sample_points.map (fun q => quatToMat (quatConj q)), rfl, by simp, ?_⟩
  intro i hi
  have hmem : s.sample_points.getD i [] ∈ s.sample_points := by
    rw [List.getD_eq_getElem _ _ hi]
    exact List.getElem_mem _
  have hc := h _ hmem
  rw [getD_map_eq quatToMat _ _ hi 0 []]
  exact quatToMat_eq_spec_scalar_last _ hc.1 hc.2

/-- Witness for C2 (amended): the one-column unit sample point set
[1, 0, 0, 0]. -/
theorem getRMatsFromQuats_forward_spec_witness :
    (∀ c ∈ [[(1 : ℚ), 0, 0, 0]], c.length = 4 ∧ sumSq c = 1) ∧
    (∃ F Finv,
      (getRMatsFromQuats { sample_points := [[(1 : ℚ), 0, 0, 0]], rmats := none }).rmats
          = some (F, Finv) ∧
        F.length = [[(1 : ℚ), 0, 0, 0]].length ∧
        ∀ i, i < [[(1 : ℚ), 0, 0, 0]].length →
          F.getD i 0 = specForwardScalarLast ([[(1 : ℚ), 0, 0, 0]].getD i [])) :=
  ⟨by norm_num [sumSq], getRMatsFromQuats_forward_spec _ (by norm_num [sumSq])⟩

/-- C6: for every sample point set of unit-norm 4-vector columns,
getRMatsFromQuats produces batch-aligned stacks in which every Forward slice
is orthogonal (F·Fᵗ = 1 exactly, in the exact-arithmetic idealization) and
every Inverse slice is the transpose of the Forward slice, so the two are
mutually inverse orthogonal matrices. -/
theorem getRMatsFromQuats_orthogonal (s : SNSampler)
    (h : ∀ c ∈ s.sample_points, c.length = 4 ∧ sumSq c = 1) :
    ∃ F Finv, (getRMatsFromQuats s).rmats = some (F, Finv) ∧
      F.length = s.sample_points.length ∧ Finv.length = F.length ∧
      ∀ i, i < F.length →
        F.getD i 0 * (F.getD i 0)ᵀ = 1 ∧ Finv.getD i 0 = (F.getD i 0)ᵀ := by
  refine ⟨s.sample_points.map quatToMat,
    s.sample_points.map (fun q => quatToMat (quatConj q)), rfl, by simp, by simp, ?_⟩
  intro i hi
  have hi' : i < s.sample_points.length := by simpa using hi
  have hmem : s.sample_points.getD i [] ∈ s.sample_points := by
    rw [List.getD_eq_getElem _ _ hi']
    exact List.getElem_mem _
  have hc := h _ hmem
  rw [getD_map_eq quatToMat _ _ hi' 0 [],
    getD_map_eq (fun q => quatToMat (quatConj q)) _ _ hi' 0 []]
  exact ⟨quatToMat_orthogonal_of_unit _ hc.1 hc.2, quatToMat_conj_transpose _⟩

/-- Witness for C6: the one-column unit sample point set [1, 0, 0, 0]. -/
theorem getRMatsFromQuats_orthogonal_witness :
    (∀ c ∈ [[(1 : ℚ), 0, 0, 0]], c.length = 4 ∧ sumSq c = 1) ∧
    (∃ F Finv,
      (getRMatsFromQuats { sample_points := [[(1 : ℚ), 0, 0, 0]], rmats := none }).rmats
          = some (F, Finv) ∧
        F.length = [[(1 : ℚ), 0, 0, 0]].length ∧ Finv.length = F.length ∧
        ∀ i, i < F.length →
          F.getD i 0 * (F.getD i 0)ᵀ = 1 ∧ Finv.getD i 0 = (F.getD i 0)ᵀ) :=
  ⟨by norm_num [sumSq], getRMatsFromQuats_orthogonal _ (by norm_num [sumSq])⟩

/-- Dropping the last element of a nonempty arithmetic range drops one
count. -/
theorem range'_dropLast (s n step : ℕ) :
    (List.range' s (n + 1) step).dropLast = List.range' s n step := by
  have h := List.range'_append s n 1 step
  rw [List.range'_one] at h
  rw [show n + 1 = 1 + n from Nat.add_comm n 1, ← h, List.dropLast_concat]

/-- For start < stop and a positive step, the Python range has
(stop - start - 1)/step + 1 elements. -/
theorem pyRange_eq (start stop step : ℕ) (h : start < stop) (hs : 1 ≤ step) :
    pyRange start stop step
      = List.range' start ((stop - start - 1) / step + 1) step := by
  unfold pyRange
  congr 1
  have h1 : stop - start + step - 1 = (stop - start - 1) + step := by omega
  rw [h1, Nat.add_div_right _ (by omega)]

/-- Every index of the truncated range stays strictly below the bound. -/
theorem pyRange_lt (start stop step k : ℕ) (h : start < stop) (hs : 1 ≤ step)
    (hk : k < (stop - start - 1) / step + 1) : start + step * k < stop := by
  have hd := Nat.div_add_mod (stop - start - 1) step
  have hm : (stop - start - 1) % step < step := Nat.mod_lt _ (by omega)
  have hk' : k ≤ (stop - start - 1) / step := by omega
  have hmul : step * k ≤ step * ((stop - start - 1) / step) :=
    Nat.mul_le_mul_left _ hk'
  generalize step * ((stop - start - 1) / step) = t at hd hmul
  generalize step * k = u at hmul ⊢
  omega

/-- The truncation is maximal: one more step would reach the bound. -/
theorem pyRange_max (start stop step : ℕ) (h : start < stop) (hs : 1 ≤ step) :
    stop ≤ start + step * ((stop - start - 1) / step + 1) := by
  have hd := Nat.div_add_mod (stop - start - 1) step
  have hm : (stop - start - 1) % step < step := Nat.mod_lt _ (by omega)
  rw [Nat.mul_succ]
  generalize step * ((stop - start - 1) / step) = t at hd ⊢
  omega

/-- A gather over in-range indices succeeds and is the mapped lookup. -/
theorem npGather_ok (L : List Mat3) (idx : List ℕ) (hj : ∀ j ∈ idx, j < L.length) :
    npGather L idx = Except.ok (idx.map fun i => L.getD i 0) := by
  unfold npGather
  rw [if_pos]
  rw [List.all_eq_true]
  intro i hi
  simpa using hj i hi

/-- On a state holding the rotation-matrix pair, with start inside the batch
and a positive stride, getTransformationSequence succeeds with the gathered
differential stack alongside the Python index range. -/
theorem getTransformationSequence_ok (s : SNSampler) (R Rinv : List Mat3)
    (start stride : ℕ) (hr : s.rmats = some (R, Rinv))
    (hlen : Rinv.length = R.length) (hstart : start < R.length)
    (hstride : 1 ≤ stride) :
    (getTransformationSequence s start stride).2
      = Except.ok
          (R.getD start 0 ::
            multimatmul
              ((pyRange start R.length stride).tail.map fun i => R.getD i 0)
              ((pyRange start R.length stride).dropLast.map fun i => Rinv.getD i 0),
            pyRange start R.length stride) := by
  have hget : npGet R start = Except.ok (R.getD start 0) := by
    unfold npGet
    rw [dif_pos hstart, List.getD_eq_getElem _ _ hstart]
  have hcons : pyRange start R.length stride
      = start :: List.range' (start + stride) ((R.length - start - 1) / stride) stride := by
    rw [pyRange_eq start R.length stride hstart hstride, List.range'_succ]
  have htail : ∀ j ∈ List.range' (start + stride) ((R.length - start - 1) / stride) stride,
      j < R.length := by
    intro j hj
    obtain ⟨i, hi, rfl⟩ := List.mem_range'.mp hj
    have hlt : start + stride * (i + 1) < R.length :=
      pyRange_lt start R.length stride (i + 1) hstart hstride (by omega)
    rw [Nat.mul_succ] at hlt
    omega
  have hdrop : ∀ j ∈ List.range' start ((R.length - start - 1) / stride) stride,
      j < Rinv.length := by
    rw [hlen]
    intro j hj
    obtain ⟨i, hi, rfl⟩ := List.mem_range'.mp hj
    exact pyRange_lt start R.length stride i hstart hstride (by omega)
  have hga := npGather_ok R _ htail
  have hgb := npGather_ok Rinv _ hdrop
  have hdrop2 : (start :: List.range' (start + stride)
        ((R.length - start - 1) / stride) stride).dropLast
      = List.range' start ((R.length - start - 1) / stride) stride := by
    rw [← List.range'_succ, range'_dropLast]
  simp only [getTransformationSequence, hr, hcons, List.tail_cons, hdrop2, hget, hga, hgb]

/-- C3: for a sampler whose rotation-matrix pair exists (batch-sized and
satisfying the pair's mutual-inverse invariant), any start inside the batch
and any stride ≥ 1, getTransformationSequence returns the truncated
arithmetic index list idx = [start, start+stride, …] (every index below the
batch bound, and maximal: one more stride would reach it) together with a
stack D of the same length M with D[0] = Forward[idx[0]] and, for every
k in 1..M-1, D[k] = Forward[idx[k]] · Inverse[idx[k-1]], whence
D[k] · Forward[idx[k-1]] = Forward[idx[k]]; M = 1 gives just the first
element. -/
theorem getTransformationSequence_spec (s : SNSampler) (R Rinv : List Mat3)
    (start stride : ℕ) (hr : s.rmats = some (R, Rinv))
    (hlen : Rinv.length = R.length) (hstart : start < R.length)
    (hstride : 1 ≤ stride)
    (hinv : ∀ i, i < R.length → Rinv.getD i 0 * R.getD i 0 = 1) :
    ∃ D idx, (getTransformationSequence s start stride).2 = Except.ok (D, idx) ∧
      D.length = idx.length ∧ 0 < idx.length ∧
      (∀ k, k < idx.length → idx.getD k 0 = start + stride * k) ∧
      (∀ j ∈ idx, j < R.length) ∧
      R.length ≤ start + stride * idx.length ∧
      D.getD 0 0 = R.getD start 0 ∧
      (∀ k, 1 ≤ k → k < idx.length →
        D.getD k 0 = R.getD (idx.getD k 0) 0 * Rinv.getD (idx.getD (k - 1) 0) 0 ∧
        D.getD k 0 * R.getD (idx.getD (k - 1) 0) 0 = R.getD (idx.getD k 0) 0) := by
  have hok := getTransformationSequence_ok s R Rinv start stride hr hlen hstart hstride
  rw [pyRange_eq start R.length stride hstart hstride] at hok
  refine ⟨_, _, hok, ?_, ?_, ?_, ?_, ?_, ?_, ?_⟩
  · simp [multimatmul, List.tail_range', range'_dropLast]
  · simp
  · intro k hk
    rw [List.length_range'] at hk
    rw [List.getD_eq_getElem _ _ (by simpa using hk), List.getElem_range']
  · intro j hj
    obtain ⟨i, hi, rfl⟩ := List.mem_range'.mp hj
    exact pyRange_lt start R.length stride i hstart hstride hi
  · rw [List.length_range']
    exact pyRange_max start R.length stride hstart hstride
  · simp
  · intro k hk1 hk2
    obtain ⟨j, rfl⟩ : ∃ j, k = j + 1 := ⟨k - 1, by omega⟩
    rw [List.length_range'] at hk2
    have hj : j < (R.length - start - 1) / stride := by omega
    have hidx1 : (List.range' start ((R.length - start - 1) / stride + 1) stride).getD
        (j + 1) 0 = start + stride * (j + 1) := by
      rw [List.getD_eq_getElem _ _ (by simpa using hk2), List.getElem_range']
    have hidx0 : (List.range' start ((R.length - start - 1) / stride + 1) stride).getD
        (j + 1 - 1) 0 = start + stride * j := by
      simp only [Nat.add_sub_cancel]
      rw [List.getD_eq_getElem _ _ (by simp only [List.length_range']; omega),
        List.getElem_range']
    have hzip : j < (multimatmul
        ((List.range' (start + stride) ((R.length - start - 1) / stride) stride).map
          fun i => R.getD i 0)
        ((List.range' start ((R.length - start - 1) / stride) stride).map
          fun i => Rinv.getD i 0)).length := by
      simp only [multimatmul, List.length_zipWith, List.length_map, List.length_range']
      omega
    have hD : (R.getD start 0 :: multimatmul
          ((List.range' start ((R.length - start - 1) / stride + 1) stride).tail.map
            fun i => R.getD i 0)
          ((List.range' start ((R.length - start - 1) / stride + 1) stride).dropLast.map
            fun i => Rinv.getD i 0)).getD (j + 1) 0
        = R.getD (start + stride * (j + 1)) 0 * Rinv.getD (start + stride * j) 0 := by
      rw [List.getD_cons_succ]
      simp only [List.tail_range', range'_dropLast, Nat.add_sub_cancel]
      rw [List.getD_eq_getElem _ _ hzip]
      simp only [multimatmul, List.getElem_zipWith, List.getElem_map, List.getElem_range']
      rw [show start + stride + stride * j = start + stride * (j + 1) from by
        rw [Nat.mul_succ]; omega]
    refine ⟨by rw [hD, hidx1, hidx0], ?_⟩
    rw [hD, hidx1, hidx0, mul_assoc,
      hinv (start + stride * j) (pyRange_lt start R.length stride j hstart hstride
        (by omega)), mul_one]

/-- Witness for C3: a pair of two identity slices, start = 0, stride = 1. -/
theorem getTransformationSequence_spec_witness :
    ∃ D idx,
      (getTransformationSequence
          { sample_points := [], rmats := some ([1, 1], [1, 1]) } 0 1).2
        = Except.ok (D, idx) ∧
      D.length = idx.length ∧ 0 < idx.length ∧
      (∀ k, k < idx.length → idx.getD k 0 = 0 + 1 * k) ∧
      (∀ j ∈ idx, j < ([1, 1] : List Mat3).length) ∧
      ([1, 1] : List Mat3).length ≤ 0 + 1 * idx.length ∧
      D.getD 0 0 = ([1, 1] : List Mat3).getD 0 0 ∧
      (∀ k, 1 ≤ k → k < idx.length →
        D.getD k 0 = ([1, 1] : List Mat3).getD (idx.getD k 0) 0
            * ([1, 1] : List Mat3).getD (idx.getD (k - 1) 0) 0 ∧
        D.getD k 0 * ([1, 1] : List Mat3).getD (idx.getD (k - 1) 0) 0
          = ([1, 1] : List Mat3).getD (idx.getD k 0) 0) :=
  getTransformationSequence_spec _ [1, 1] [1, 1] 0 1 rfl rfl (by simp) (by omega)
    (by intro i hi; simp only [List.length_cons, List.length_nil] at hi
        interval_cases i <;> simp)

/-- Membership in an insertion step. -/
theorem mem_insertCol {c a : List ℚ} {l : List (List ℚ)} :
    a ∈ insertCol c l ↔ a = c ∨ a ∈ l := by
  induction l with
  | nil => simp [insertCol]
  | cons d ds ih =>
    by_cases h : lexLe c d <;> simp [insertCol, h, ih] <;> tauto

/-- Sorting the columns preserves membership. -/
theorem mem_sortCols {a : List ℚ} {l : List (List ℚ)} :
    a ∈ sortCols l ↔ a ∈ l := by
  induction l with
  | nil => simp [sortCols]
  | cons c cs ih => simp [sortCols, mem_insertCol, ih]

/-- Every column of np.unique's output is a column of its input. -/
theorem mem_uniqueCols {a : List ℚ} {l : List (List ℚ)} (h : a ∈ uniqueCols l) :
    a ∈ l :=
  mem_sortCols.mp (List.mem_dedup.mp h)

/-- Every column of ptsNd ends in the appended face coordinate -1 or 1. -/
theorem ptsNdCols_unit_entry (n_dims n_samples : ℕ) (c : List ℚ)
    (h : c ∈ ptsNdCols n_dims n_samples) : ∃ x ∈ c, x = -1 ∨ x = 1 := by
  unfold ptsNdCols at h
  rw [List.mem_append] at h
  rcases h with h | h
  · obtain ⟨c', hc', rfl⟩ := List.mem_map.mp h
    exact ⟨-1, by simp, Or.inl rfl⟩
  · obtain ⟨c', hc', rfl⟩ := List.mem_map.mp h
    exact ⟨1, by simp, Or.inr rfl⟩

/-- Rolling the coordinates keeps the ±1 face coordinate in the column. -/
theorem rolledCols_unit_entry (n_dims n_samples : ℕ) (c : List ℚ)
    (h : c ∈ rolledCols n_dims n_samples) : ∃ x ∈ c, x = -1 ∨ x = 1 := by
  unfold rolledCols at h
  obtain ⟨k, hk, hc⟩ := List.mem_flatMap.mp h
  obtain ⟨c', hc', rfl⟩ := List.mem_map.mp hc
  obtain ⟨x, hx, hpm⟩ := ptsNdCols_unit_entry n_dims n_samples c' hc'
  refine ⟨x, ?_, hpm⟩
  unfold rollCol
  exact List.mem_rotate.mpr hx

/-- A column holding a ±1 entry has positive squared norm. -/
theorem sumSq_pos_of_unit_entry (c : List ℚ) (h : ∃ x ∈ c, x = -1 ∨ x = 1) :
    0 < sumSq c := by
  obtain ⟨x, hx, hpm⟩ := h
  have hx2 : x ^ 2 = 1 := by rcases hpm with rfl | rfl <;> norm_num
  have hmem : x ^ 2 ∈ c.map fun y => y ^ 2 := List.mem_map_of_mem _ hx
  have hle : x ^ 2 ≤ (c.map fun y => y ^ 2).sum := by
    refine List.single_le_sum ?_ _ hmem
    intro y hy
    obtain ⟨z, _, rfl⟩ := List.mem_map.mp hy
    exact sq_nonneg z
  unfold sumSq
  linarith

/-- Every deduplicated cube-surface column has positive squared norm. -/
theorem ptsCols_sumSq_pos (n_dims n_samples : ℕ) (c : List ℚ)
    (h : c ∈ ptsCols n_dims n_samples) : 0 < sumSq c :=
  sumSq_pos_of_unit_entry c
    (rolledCols_unit_entry n_dims n_samples c (mem_uniqueCols h))

/-- Casting the rational sum of squares to ℝ commutes with summing the
squared real coordinates. -/
theorem sumSq_cast (l : List ℚ) :
    ((sumSq l : ℚ) : ℝ) = (l.map fun x : ℚ => ((x : ℝ)) ^ 2).sum := by
  unfold sumSq
  induction l with
  | nil => simp
  | cons a t ih =>
    simp only [List.map_cons, List.sum_cons]
    rw [Rat.cast_add, Rat.cast_pow, ih]

/-- Dividing a positively-normed column by the square root of its squared
norm yields a column of Euclidean norm exactly one. -/
theorem norm_normalized_eq_one (c : List ℚ) (hpos : 0 < sumSq c) :
    Real.sqrt ((c.map fun x : ℚ =>
      ((x : ℝ) / Real.sqrt ((sumSq c : ℚ) : ℝ)) ^ 2).sum) = 1 := by
  have hR : (0 : ℝ) < ((sumSq c : ℚ) : ℝ) := by exact_mod_cast hpos
  have hs : Real.sqrt ((sumSq c : ℚ) : ℝ) ^ 2 = ((sumSq c : ℚ) : ℝ) :=
    Real.sq_sqrt hR.le
  have hmap : (c.map fun x : ℚ => ((x : ℝ) / Real.sqrt ((sumSq c : ℚ) : ℝ)) ^ 2)
      = c.map fun x : ℚ => ((x : ℝ) ^ 2) * (((sumSq c : ℚ) : ℝ))⁻¹ := by
    refine List.map_congr_left ?_
    intro x _
    rw [div_pow, hs, div_eq_mul_inv]
  rw [hmap, List.sum_map_mul_right, ← sumSq_cast,
    mul_inv_cancel₀ hR.ne', Real.sqrt_one]

/-- C4: for every dimension ≥ 2 and grid size ≥ 2, every column of the
constructed sample point set — a deduplicated cube-surface column divided by
the square root of its squared norm — has Euclidean norm exactly 1 (the
exact-arithmetic reading of "1 within floating-point tolerance"). -/
theorem construction_unit_norm (n_dims n_samples : ℕ) (hN : 2 ≤ n_dims)
    (hn : 2 ≤ n_samples) (c : List ℚ) (hc : c ∈ ptsCols n_dims n_samples) :
    Real.sqrt ((c.map fun x : ℚ =>
      ((x : ℝ) / Real.sqrt ((sumSq c : ℚ) : ℝ)) ^ 2).sum) = 1 :=
  norm_normalized_eq_one c (ptsCols_sumSq_pos n_dims n_samples c hc)

/-- Witness for C4: for n_dims = 2, n_samples = 2, the corner column
[-1, -1] belongs to the constructed set and normalizes to norm 1. -/
theorem construction_unit_norm_witness :
    ((2 : ℕ) ≤ 2 ∧ [(-1 : ℚ), -1] ∈ ptsCols 2 2) ∧
    Real.sqrt ((([(-1 : ℚ), -1]).map fun x : ℚ =>
      ((x : ℝ) / Real.sqrt ((sumSq [(-1 : ℚ), -1] : ℚ) : ℝ)) ^ 2).sum) = 1 :=
  ⟨⟨le_refl 2, by
      norm_num [ptsCols, uniqueCols, rolledCols, ptsNdCols, ptsNm1dCols, gridTuples,
        swap12, linspace, rollCol, sortCols, insertCol, lexLe, List.ofFn_succ,
        List.rotate_cons_succ]⟩,
    construction_unit_norm 2 2 (le_refl 2) (le_refl 2) _ (by
      norm_num [ptsCols, uniqueCols, rolledCols, ptsNdCols, ptsNm1dCols, gridTuples,
        swap12, linspace, rollCol, sortCols, insertCol, lexLe, List.ofFn_succ,
        List.rotate_cons_succ])⟩

end SNS
